import Mathlib

/-!
Verification of the TRIQS_Meeting_2019 notebook: a pipeline computing the
tight-binding dispersion, the non-interacting lattice Green function
G0(k, iw) = 1 / (iw - eps(k) + mu) on a momentum x fermionic-Matsubara mesh,
the particle-hole bubble chi0 via the real-space/imaginary-time route
chi0(r, tau) = G0(r, tau) * G0(-r, beta - tau), and the RPA closure
chi_RPA = 2 chi0 / (1 - U chi0).

The notebook delegates mesh construction and Fourier transforms to an external
library.  Those capabilities are modelled here from the spec: the transforms
are exact discrete Fourier transforms over periodic (bosonic) respectively
antiperiodic (fermionic) finite sequences, with mutually consistent
normalization between the forward and backward legs, as the spec requires.
-/

set_option maxHeartbeats 1600000

noncomputable section

/-! ## Statistics tags and mesh records (data model of cell 8 and the C++ bubble) -/

/-- Statistics tag of a mesh or mesh-valued function: fermionic meshes carry odd
Matsubara frequencies and antiperiodic boundary conditions in imaginary time,
bosonic meshes even frequencies and periodic boundary conditions. -/
inductive Statistic where
  | Fermion
  | Boson
  deriving DecidableEq

/-- Record of an imaginary-time mesh: inverse temperature, statistics tag and
number of points (the shape data of the library's imtime mesh). -/
structure TimeMesh where
  beta : ℝ
  statistic : Statistic
  size : ℕ

/-- Record of a Matsubara-frequency mesh: inverse temperature, statistics tag
and number of frequencies (the shape data of the library's imfreq mesh). -/
structure FreqMesh where
  beta : ℝ
  statistic : Statistic
  size : ℕ

/-- Modelled from the spec: the conjugate-mesh operation of the external
library maps a frequency mesh to the imaginary-time mesh with the same beta,
the same statistics tag, and one time sample per independent frequency. -/
def adjointTime (m : FreqMesh) : TimeMesh :=
  { beta := m.beta, statistic := m.statistic, size := m.size }

/-- Modelled from the spec: the conjugate-mesh operation in the other
direction, again preserving beta and the statistics tag. -/
def adjointFreq (m : TimeMesh) : FreqMesh :=
  { beta := m.beta, statistic := m.statistic, size := m.size }

/-- The time mesh the C++ bubble builds for chi0 before transforming back to
frequency: a freshly constructed bosonic mesh with the beta and the point
count taken from the fermionic time mesh of g0_r_tau
(source: `gf_mesh<imtime>{beta, Boson, tau_mesh.size()}`). -/
def bubbleTauMeshBosonic (tau_mesh : TimeMesh) : TimeMesh :=
  { beta := tau_mesh.beta, statistic := Statistic.Boson, size := tau_mesh.size }

/-! ## Bubble configuration validation (error-handling design of the spec) -/

/-- Descriptive error conditions for an invalid bubble configuration. -/
inductive BubbleConfigError where
  | nonpositiveBeta
  | mismatchedSizes
  | mismatchedBeta
  deriving DecidableEq

/-- Numeric configuration of a bubble evaluation: the run's beta, the betas of
the paired fermionic and bosonic meshes and their sizes.  Floating-point
inputs are modelled as rationals. -/
structure BubbleConfig where
  beta : ℚ
  fermionBeta : ℚ
  bosonBeta : ℚ
  fermionSize : ℕ
  bosonSize : ℕ
  deriving DecidableEq

/-- Modelled from the spec: the notebook itself performs no validation (mesh
construction is delegated to the library), but the spec's failure clause
requires the bubble evaluator to fail fast on a non-positive beta or on
mismatched sizes or betas between the paired fermionic and bosonic meshes. -/
def validateBubbleConfig (c : BubbleConfig) : Except BubbleConfigError Unit :=
  if c.beta ≤ 0 then Except.error BubbleConfigError.nonpositiveBeta
  else if c.fermionSize ≠ c.bosonSize then Except.error BubbleConfigError.mismatchedSizes
  else if c.fermionBeta ≠ c.beta ∨ c.bosonBeta ≠ c.beta then
    Except.error BubbleConfigError.mismatchedBeta
  else Except.ok ()

/-- The guarded bubble evaluation: the susceptibility is computed only after
the configuration check passes; an invalid configuration produces the error
and no value. -/
def bubbleChecked {A : Type} (c : BubbleConfig) (compute : Unit → A) :
    Except BubbleConfigError A :=
  Except.map (fun _ => compute ()) (validateBubbleConfig c)

/-! ## Imaginary-time mesh samples (reflected-point lookup of cell 16) -/

/-- Sample positions of the library's imaginary-time mesh: `ntau` uniformly
spaced points spanning `[0, beta]` with both endpoints included, hence
symmetric about `beta / 2`. -/
def tauPoint (beta : ℝ) (ntau : ℕ) (i : ℕ) : ℝ :=
  (i : ℝ) * beta / ((ntau - 1 : ℕ) : ℝ)

/-! ## Dispersion (cells 4 and 7) -/

/-- The tight-binding hopping table of cell 4: amplitude `t` on the four
nearest-neighbor displacement vectors of the square lattice. -/
def hop (t : ℝ) : List ((ℤ × ℤ) × ℝ) :=
  [((1, 0), t), ((-1, 0), t), ((0, 1), t), ((0, -1), t)]

/-- Modelled from the spec: the band energy returned by the library call
`energies_on_bz_path` for the tight-binding model is
eps(k) = sum over the hopping table of t_delta * exp(i k . delta). -/
def eps (t : ℝ) (k : ℝ × ℝ) : ℂ :=
  ((hop t).map fun p =>
    (p.2 : ℂ) * Complex.exp (Complex.I * ((k.1 * p.1.1 + k.2 * p.1.2 : ℝ) : ℂ))).sum

/-! ## Meshes and the Green function (cells 3, 8, 10) -/

/-- The Brillouin-zone mesh of cell 8: `nk` linear momenta per direction on the
2D square lattice, indexed cyclically. -/
abbrev Kmesh (nk : ℕ) := ZMod nk × ZMod nk

/-- Momentum vector of a mesh index: k = (2 pi a / nk, 2 pi b / nk). -/
def kvec (nk : ℕ) (k : Kmesh nk) : ℝ × ℝ :=
  (2 * Real.pi * (ZMod.val k.1 : ℝ) / nk, 2 * Real.pi * (ZMod.val k.2 : ℝ) / nk)

/-- Dispersion evaluated at a momentum-mesh point (cell 7's `eps(BL, TB, k)`
at the mesh point `k`). -/
def epsMesh (nk : ℕ) (t : ℝ) (k : Kmesh nk) : ℂ :=
  eps t (kvec nk k)

/-- Fermionic Matsubara frequency: w_m = (2 m + 1) pi / beta. -/
def wFermi (beta : ℝ) (m : ℤ) : ℝ :=
  (2 * (m : ℝ) + 1) * Real.pi / beta

/-- Bosonic Matsubara frequency: W_n = 2 n pi / beta. -/
def wBose (beta : ℝ) (n : ℤ) : ℝ :=
  2 * (n : ℝ) * Real.pi / beta

/-- Index set of the fermionic frequency mesh of cell 8: `MeshImFreq(beta,
Fermion, n_iw)` holds the `2 * n_iw` frequencies with indices
`-n_iw, ..., n_iw - 1`. -/
def Wmesh (niw : ℕ) : Finset ℤ :=
  Finset.Icc (-(niw : ℤ)) ((niw : ℤ) - 1)

/-- The non-interacting Green function constructed by the loop of cell 10:
`G0[k, iw] = 1 / (iw - eps(BL, TB, k) + mu)` at each point of the momentum x
fermionic-frequency product mesh. -/
def G0k (nk : ℕ) (beta mu t : ℝ) (k : Kmesh nk) (m : ℤ) : ℂ :=
  1 / (Complex.I * ((wFermi beta m : ℝ) : ℂ) - epsMesh nk t k + (mu : ℂ))

/-! ## Fourier transforms between conjugate meshes (library model, cells 15, 19)

Modelled from the spec: the library's `make_gf_from_fourier` is an exact
discrete Fourier transform along one axis of a product mesh, statistics-aware
and with normalization consistent between the forward and backward legs.  The
momentum/real-space pair carries the lattice volume factor on the backward
(real-space to momentum) leg; the frequency/time pair carries 1/beta on the
frequency-to-time leg and beta/N on the time-to-frequency leg.  Imaginary
time is sampled on the fundamental domain [0, beta) of the (anti)periodic
sequences, one sample per independent frequency; the value at the inclusive
boundary sample beta is determined by the statistics. -/

/-- Integer phase index k . r of a momentum index and a lattice-site index:
the plane-wave phase at those mesh points is exp(2 pi i (k . r) / nk). -/
def kdot (nk : ℕ) (k r : Kmesh nk) : ℤ :=
  (ZMod.val k.1 : ℤ) * (ZMod.val r.1 : ℤ) + (ZMod.val k.2 : ℤ) * (ZMod.val r.2 : ℤ)

/-- Primitive phase: ph N x = exp(2 pi i x / N). -/
def ph (N : ℕ) (x : ℤ) : ℂ :=
  Complex.exp (2 * (Real.pi : ℂ) * Complex.I * (x : ℂ) / (N : ℂ))

/-- Modelled from the spec: the forward lattice Fourier leg (momentum to
real space), G(r) = sum over k of exp(i k . r) G(k). -/
def fourierK (nk : ℕ) [NeZero nk] (g : Kmesh nk → ℂ) (r : Kmesh nk) : ℂ :=
  ∑ k : Kmesh nk, ph nk (kdot nk k r) * g k

/-- Modelled from the spec: the backward lattice Fourier leg (real space to
momentum), G(k) = (1/N) sum over r of exp(-i k . r) G(r), carrying the
lattice volume factor so that the two legs round-trip exactly. -/
def fourierKinv (nk : ℕ) [NeZero nk] (g : Kmesh nk → ℂ) (k : Kmesh nk) : ℂ :=
  (1 / (nk : ℂ) ^ 2) * ∑ r : Kmesh nk, ph nk (-(kdot nk k r)) * g r

/-- Imaginary-time sample positions used by the transforms: the fundamental
domain [0, beta) sampled at tau_l = l beta / (2 niw). -/
def tauSample (beta : ℝ) (niw : ℕ) (l : ℕ) : ℝ :=
  (l : ℝ) * beta / (2 * niw)

/-- Modelled from the spec: the fermionic frequency-to-time leg,
G(tau) = (1/beta) sum over the frequency mesh of exp(-i w_m tau) G(i w_m);
as a trigonometric interpolant it is defined for every real tau and is
automatically beta-antiperiodic. -/
def fourierT (beta : ℝ) (niw : ℕ) (g : ℤ → ℂ) (tau : ℝ) : ℂ :=
  (1 / (beta : ℂ)) * ∑ m ∈ Wmesh niw,
    Complex.exp (-(Complex.I * ((wFermi beta m * tau : ℝ) : ℂ))) * g m

/-- Modelled from the spec: the fermionic time-to-frequency leg,
G(i w_m) = (beta/N) sum over time samples of exp(i w_m tau_l) G(tau_l). -/
def fourierTinv (beta : ℝ) (niw : ℕ) (g : ℝ → ℂ) (m : ℤ) : ℂ :=
  ((beta : ℂ) / (2 * niw)) * ∑ l ∈ Finset.range (2 * niw),
    Complex.exp (Complex.I * ((wFermi beta m * tauSample beta niw l : ℝ) : ℂ))
      * g (tauSample beta niw l)

/-- Modelled from the spec: the bosonic time-to-frequency leg used after the
statistics re-tagging of the chi0 time mesh, with the bosonic frequencies
W_n = 2 n pi / beta and the same beta and number of points as the fermionic
time mesh. -/
def fourierTinvBoson (beta : ℝ) (niw : ℕ) (g : ℝ → ℂ) (n : ℤ) : ℂ :=
  ((beta : ℂ) / (2 * niw)) * ∑ l ∈ Finset.range (2 * niw),
    Complex.exp (Complex.I * ((wBose beta n * tauSample beta niw l : ℝ) : ℂ))
      * g (tauSample beta niw l)

/-- Representative in the fermionic frequency window of an integer index,
modulo the window length 2 niw (frequency aliasing of the discrete
transform). -/
def wrapW (niw : ℕ) (x : ℤ) : ℤ :=
  (x + niw) % (2 * (niw : ℤ)) - niw

/-! ## The bubble pipeline (cells 15, 16, 17, 19 and the C++ bubble) -/

/-- Cell 15, first loop: G0 transformed along the momentum axis,
`G0_r_iw[:, iw] = make_gf_from_fourier(G0[:, iw])` for each frequency. -/
def G0r (nk : ℕ) [NeZero nk] (beta mu t : ℝ) (r : Kmesh nk) (m : ℤ) : ℂ :=
  fourierK nk (fun k => G0k nk beta mu t k m) r

/-- Cell 15, second loop: the result transformed along the frequency axis,
`G0_r_tau[r, :] = make_gf_from_fourier(G0_r_iw[r, :])` for each site. -/
def G0rt (nk : ℕ) [NeZero nk] (niw : ℕ) (beta mu t : ℝ) (r : Kmesh nk) (tau : ℝ) : ℂ :=
  fourierT beta niw (G0r nk beta mu t r) tau

/-- Cell 16: the reflected function, `G0_minus_r_minus_tau[r, tau] =
G0_r_tau(-r, beta - tau)` evaluated by the library's exact lookup. -/
def G0reflected (nk : ℕ) [NeZero nk] (niw : ℕ) (beta mu t : ℝ)
    (r : Kmesh nk) (tau : ℝ) : ℂ :=
  G0rt nk niw beta mu t (-r) (beta - tau)

/-- Cell 17: the bubble in real space and imaginary time,
`chi0_r_tau = G0_r_tau * G0_minus_r_minus_tau` (pointwise product). -/
def chi0rt (nk : ℕ) [NeZero nk] (niw : ℕ) (beta mu t : ℝ)
    (r : Kmesh nk) (tau : ℝ) : ℂ :=
  G0rt nk niw beta mu t r tau * G0reflected nk niw beta mu t r tau

/-- Cell 19, first loop: chi0 transformed back along the (bosonic) time axis,
`chi0_r_iW[r, :] = make_gf_from_fourier(chi0_r_tau[r, :])` for each site. -/
def chi0riW (nk : ℕ) [NeZero nk] (niw : ℕ) (beta mu t : ℝ)
    (r : Kmesh nk) (n : ℤ) : ℂ :=
  fourierTinvBoson beta niw (chi0rt nk niw beta mu t r) n

/-- Cell 19, second loop: chi0 transformed back along the momentum axis,
`chi0[:, iW] = make_gf_from_fourier(chi0_r_iW[:, iW])` for each frequency:
the susceptibility of the real-space/imaginary-time route. -/
def chi0conv (nk : ℕ) [NeZero nk] (niw : ℕ) (beta mu t : ℝ)
    (q : Kmesh nk) (n : ℤ) : ℂ :=
  fourierKinv nk (fun r => chi0riW nk niw beta mu t r n) q

/-- Modelled from the spec: the reference/oracle implementation, the direct
brute-force double sum chi0(q, iW_n) = -(1/beta) sum over (k, m) of
G0(k, i w_m) G0(k + q, i w_m + i W_n) over the momentum and
fermionic-frequency meshes. -/
def chi0brute (nk : ℕ) [NeZero nk] (niw : ℕ) (beta mu t : ℝ)
    (q : Kmesh nk) (n : ℤ) : ℂ :=
  -(1 / (beta : ℂ)) * ∑ k : Kmesh nk, ∑ m ∈ Wmesh niw,
    G0k nk beta mu t k m * G0k nk beta mu t (k + q) (m + n)

/-- The brute-force double sum with the shifted frequency index m + n wrapped
back into the fermionic frequency window (the aliasing the discrete
time-to-frequency transform performs); at n = 0 it coincides with
`chi0brute`. -/
def chi0bruteWrapped (nk : ℕ) [NeZero nk] (niw : ℕ) (beta mu t : ℝ)
    (q : Kmesh nk) (n : ℤ) : ℂ :=
  -(1 / (beta : ℂ)) * ∑ k : Kmesh nk, ∑ m ∈ Wmesh niw,
    G0k nk beta mu t k m * G0k nk beta mu t (k + q) (wrapW niw (m + n))

/-! ## RPA closure (cell 32) -/

/-- The RPA susceptibility of cell 32, `chi_RPA = 2 * chi0 * inverse(1 - U *
chi0)`, an elementwise operation on the bosonic product mesh. -/
def chiRPA (nk : ℕ) (U : ℝ) (chi : Kmesh nk × ℤ → ℂ) : Kmesh nk × ℤ → ℂ :=
  fun x => 2 * chi x * (1 - (U : ℂ) * chi x)⁻¹

end

/-! ## Helper lemmas -/

/-- Closed form of the dispersion: with the nearest-neighbor table of cell 4,
eps(k) = 2 t (cos kx + cos ky). -/
theorem eps_closed (t : ℝ) (k : ℝ × ℝ) :
    eps t k = ((2 * t * (Real.cos k.1 + Real.cos k.2) : ℝ) : ℂ) := by
  have h : ∀ x : ℝ, Complex.exp (Complex.I * (x : ℂ)) =
      ((Real.cos x : ℝ) : ℂ) + ((Real.sin x : ℝ) : ℂ) * Complex.I := by
    intro x
    rw [mul_comm, Complex.exp_mul_I]
    simp [Complex.ofReal_cos, Complex.ofReal_sin]
  simp only [eps, hop, List.map_cons, List.map_nil, List.sum_cons, List.sum_nil]
  push_cast
  rw [show (k.1 * 1 + k.2 * 0 : ℂ) = ((k.1 : ℝ) : ℂ) by ring]
  rw [show (k.1 * (-1) + k.2 * 0 : ℂ) = (((-k.1 : ℝ)) : ℂ) by push_cast; ring]
  rw [show (k.1 * 0 + k.2 * 1 : ℂ) = ((k.2 : ℝ) : ℂ) by ring]
  rw [show (k.1 * 0 + k.2 * (-1) : ℂ) = (((-k.2 : ℝ)) : ℂ) by push_cast; ring]
  rw [h k.1, h (-k.1), h k.2, h (-k.2)]
  push_cast
  rw [Complex.cos_neg, Complex.sin_neg, Complex.cos_neg, Complex.sin_neg]
  ring

/-- Evenness of the cosine of a mesh momentum component under mesh negation:
the momentum of index `-a` is `2 pi - (2 pi a.val / nk)` up to a full period. -/
theorem cos_zmod_val_neg (nk : ℕ) (hk : 0 < nk) (a : ZMod nk) :
    Real.cos (2 * Real.pi * (ZMod.val (-a) : ℝ) / nk)
      = Real.cos (2 * Real.pi * (ZMod.val a : ℝ) / nk) := by
  haveI : NeZero nk := ⟨hk.ne'⟩
  rcases eq_or_ne a 0 with rfl | ha
  · rw [neg_zero]
  · rw [ZMod.neg_val, if_neg ha]
    have hle : ZMod.val a ≤ nk := (ZMod.val_lt a).le
    have hnk : (nk : ℝ) ≠ 0 := Nat.cast_ne_zero.mpr hk.ne'
    have harg : 2 * Real.pi * ((nk - ZMod.val a : ℕ) : ℝ) / nk
        = 2 * Real.pi - 2 * Real.pi * (ZMod.val a : ℝ) / nk := by
      rw [Nat.cast_sub hle]
      field_simp
      ring
    rw [harg, Real.cos_sub, Real.cos_two_pi, Real.sin_two_pi]
    ring

/-- The dispersion on the mesh is even: epsMesh(-k) = epsMesh(k). -/
theorem epsMesh_neg (nk : ℕ) (hk : 0 < nk) (t : ℝ) (k : Kmesh nk) :
    epsMesh nk t (-k) = epsMesh nk t k := by
  unfold epsMesh kvec
  rw [eps_closed, eps_closed]
  simp only [Prod.fst_neg, Prod.snd_neg]
  rw [cos_zmod_val_neg nk hk k.1, cos_zmod_val_neg nk hk k.2]

/-- The dispersion evaluated at any mesh point is a real number. -/
theorem epsMesh_real (nk : ℕ) (t : ℝ) (k : Kmesh nk) :
    epsMesh nk t k
      = ((2 * t * (Real.cos (2 * Real.pi * (ZMod.val k.1 : ℝ) / nk)
          + Real.cos (2 * Real.pi * (ZMod.val k.2 : ℝ) / nk)) : ℝ) : ℂ) := by
  unfold epsMesh kvec
  rw [eps_closed]

/-! ## Claim theorems: dispersion, Green function, RPA, meshes -/

/-- Claim C6: for every momentum vector k, the dispersion evaluator returns
the hopping-table sum eps(k) = sum over delta of t_delta exp(i k . delta),
and with the notebook's nearest-neighbor table this equals
2 t (cos kx + cos ky). -/
theorem eps_hopping_sum_closed_form (t : ℝ) (k : ℝ × ℝ) :
    eps t k = ((hop t).map fun p =>
        (p.2 : ℂ) * Complex.exp (Complex.I * ((k.1 * p.1.1 + k.2 * p.1.2 : ℝ) : ℂ))).sum
      ∧ eps t k = ((2 * t * (Real.cos k.1 + Real.cos k.2) : ℝ) : ℂ) :=
  ⟨rfl, eps_closed t k⟩

/-- Claim C3: at every point (k, m) of the momentum x fermionic-frequency
product mesh, the constructed Green function equals
1 / (i w_m - eps(k) + mu), with eps(k) the dispersion at the mesh momentum
(written out through its closed form). -/
theorem G0_value_formula (nk : ℕ) (beta mu t : ℝ) (k : Kmesh nk) (m : ℤ) :
    G0k nk beta mu t k m
      = 1 / (Complex.I * (((2 * (m : ℝ) + 1) * Real.pi / beta : ℝ) : ℂ)
          - ((2 * t * (Real.cos (2 * Real.pi * (ZMod.val k.1 : ℝ) / nk)
              + Real.cos (2 * Real.pi * (ZMod.val k.2 : ℝ) / nk)) : ℝ) : ℂ)
          + (mu : ℂ)) := by
  unfold G0k wFermi
  rw [epsMesh_real]

/-- Claim C4: the RPA evaluator returns 2 chi0 / (1 - U chi0) pointwise over
the bosonic product mesh, by elementwise complex multiplication and
division. -/
theorem chiRPA_pointwise (nk : ℕ) (U : ℝ) (chi : Kmesh nk × ℤ → ℂ)
    (x : Kmesh nk × ℤ) :
    chiRPA nk U chi x = 2 * chi x / (1 - (U : ℂ) * chi x) := by
  unfold chiRPA
  rw [div_eq_mul_inv]

/-- Claim C9: with mu = 0 on the square lattice with nearest-neighbor hopping
only, eps(k) = eps(-k) for every momentum, and consequently
G0(k, iw) = G0(-k, iw) at every point of the product mesh. -/
theorem eps_G0_even (nk : ℕ) (beta t : ℝ) (hk : 0 < nk) :
    (∀ k : ℝ × ℝ, eps t (-k.1, -k.2) = eps t k) ∧
    (∀ (k : Kmesh nk) (m : ℤ), G0k nk beta 0 t (-k) m = G0k nk beta 0 t k m) := by
  constructor
  · intro k
    rw [eps_closed, eps_closed]
    simp [Real.cos_neg]
  · intro k m
    unfold G0k
    rw [epsMesh_neg nk hk]

/-- Witness for claim C9 at the notebook's parameters beta = 4, t = -1,
nk = 64. -/
theorem eps_G0_even_witness :
    (0 < 64) ∧
    ((∀ k : ℝ × ℝ, eps (-1) (-k.1, -k.2) = eps (-1) k) ∧
     (∀ (k : Kmesh 64) (m : ℤ), G0k 64 4 0 (-1) (-k) m = G0k 64 4 0 (-1) k m)) :=
  ⟨by norm_num, eps_G0_even 64 4 (-1) (by norm_num)⟩

/-- Claim C10: the division constructing G0 is well-defined: for beta > 0 the
denominator i w_m - eps(k) + mu has the nonzero imaginary part
(2 m + 1) pi / beta, so it never vanishes and G0 times the denominator is
exactly one. -/
theorem G0_denominator_ne_zero (nk : ℕ) (beta mu t : ℝ) (hb : 0 < beta)
    (k : Kmesh nk) (m : ℤ) :
    (Complex.I * ((wFermi beta m : ℝ) : ℂ) - epsMesh nk t k + (mu : ℂ)) ≠ 0 ∧
    G0k nk beta mu t k m
      * (Complex.I * ((wFermi beta m : ℝ) : ℂ) - epsMesh nk t k + (mu : ℂ)) = 1 := by
  have hgen : ∀ w x y : ℝ,
      (Complex.I * ((w : ℝ) : ℂ) - ((x : ℝ) : ℂ) + ((y : ℝ) : ℂ)).im = w := by
    intro w x y
    simp
  have him : (Complex.I * ((wFermi beta m : ℝ) : ℂ) - epsMesh nk t k + (mu : ℂ)).im
      = wFermi beta m := by
    rw [epsMesh_real]
    exact hgen _ _ _
  have hw : wFermi beta m ≠ 0 := by
    unfold wFermi
    apply div_ne_zero _ hb.ne'
    apply mul_ne_zero _ Real.pi_ne_zero
    have h1 : (2 * m + 1 : ℤ) ≠ 0 := by omega
    have h2 : ((2 * m + 1 : ℤ) : ℝ) ≠ 0 := Int.cast_ne_zero.mpr h1
    push_cast at h2
    exact h2
  have hden : (Complex.I * ((wFermi beta m : ℝ) : ℂ) - epsMesh nk t k + (mu : ℂ)) ≠ 0 := by
    intro h0
    have := congrArg Complex.im h0
    rw [him] at this
    simp at this
    exact hw this
  exact ⟨hden, by unfold G0k; rw [one_div]; exact inv_mul_cancel₀ hden⟩

/-- Witness for claim C10 at the notebook's parameters beta = 4, mu = 0,
t = -1, nk = 64, evaluated at the mesh point k = (0, 0), m = 0. -/
theorem G0_denominator_ne_zero_witness :
    ((0 : ℝ) < 4) ∧
    ((Complex.I * ((wFermi 4 0 : ℝ) : ℂ) - epsMesh 64 (-1) ((0, 0) : Kmesh 64) + ((0 : ℝ) : ℂ)) ≠ 0 ∧
     G0k 64 4 0 (-1) ((0, 0) : Kmesh 64) 0
       * (Complex.I * ((wFermi 4 0 : ℝ) : ℂ) - epsMesh 64 (-1) ((0, 0) : Kmesh 64) + ((0 : ℝ) : ℂ)) = 1) :=
  ⟨by norm_num, G0_denominator_ne_zero 64 4 0 (-1) (by norm_num) ((0, 0) : Kmesh 64) 0⟩

/-- Claim C2: the imaginary-time mesh used by the bubble to transform chi0
back to frequency is freshly constructed with bosonic statistics and the same
beta and point count as G0's fermionic time mesh, and is a different mesh
than G0's; moreover each pipeline stage carries the correct statistics tag:
fermionic for G0's time mesh, bosonic for chi0's time mesh and for the output
frequency mesh. -/
theorem bubble_tau_mesh_statistics (iwm : FreqMesh)
    (h : iwm.statistic = Statistic.Fermion) :
    (bubbleTauMeshBosonic (adjointTime iwm)).statistic = Statistic.Boson ∧
    (bubbleTauMeshBosonic (adjointTime iwm)).beta = (adjointTime iwm).beta ∧
    (bubbleTauMeshBosonic (adjointTime iwm)).size = (adjointTime iwm).size ∧
    bubbleTauMeshBosonic (adjointTime iwm) ≠ adjointTime iwm ∧
    (adjointTime iwm).statistic = Statistic.Fermion ∧
    (adjointFreq (bubbleTauMeshBosonic (adjointTime iwm))).statistic = Statistic.Boson := by
  refine ⟨rfl, rfl, rfl, ?_, h, rfl⟩
  intro heq
  have hst := congrArg TimeMesh.statistic heq
  rw [show (bubbleTauMeshBosonic (adjointTime iwm)).statistic = Statistic.Boson from rfl,
      show (adjointTime iwm).statistic = iwm.statistic from rfl, h] at hst
  exact Statistic.noConfusion hst

/-- Witness for claim C2 at the notebook's fermionic frequency mesh
(beta = 4, 2 * n_iw = 40 frequencies). -/
theorem bubble_tau_mesh_statistics_witness :
    (FreqMesh.statistic ⟨4, Statistic.Fermion, 40⟩ = Statistic.Fermion) ∧
    ((bubbleTauMeshBosonic (adjointTime ⟨4, Statistic.Fermion, 40⟩)).statistic = Statistic.Boson ∧
     (bubbleTauMeshBosonic (adjointTime ⟨4, Statistic.Fermion, 40⟩)).beta
        = (adjointTime ⟨4, Statistic.Fermion, 40⟩).beta ∧
     (bubbleTauMeshBosonic (adjointTime ⟨4, Statistic.Fermion, 40⟩)).size
        = (adjointTime ⟨4, Statistic.Fermion, 40⟩).size ∧
     bubbleTauMeshBosonic (adjointTime ⟨4, Statistic.Fermion, 40⟩)
        ≠ adjointTime ⟨4, Statistic.Fermion, 40⟩ ∧
     (adjointTime ⟨4, Statistic.Fermion, 40⟩).statistic = Statistic.Fermion ∧
     (adjointFreq (bubbleTauMeshBosonic (adjointTime ⟨4, Statistic.Fermion, 40⟩))).statistic
        = Statistic.Boson) :=
  ⟨rfl, bubble_tau_mesh_statistics ⟨4, Statistic.Fermion, 40⟩ rfl⟩

/-- Claim C7: the bubble evaluator rejects every invalid configuration
(non-positive beta, mismatched mesh sizes, or mismatched betas between the
paired fermionic and bosonic meshes) with a descriptive error, and no
susceptibility value is produced for it. -/
theorem bubble_invalid_config_fails (c : BubbleConfig)
    (h : c.beta ≤ 0 ∨ c.fermionSize ≠ c.bosonSize
        ∨ c.fermionBeta ≠ c.beta ∨ c.bosonBeta ≠ c.beta) :
    ∃ e : BubbleConfigError, validateBubbleConfig c = Except.error e ∧
      ∀ compute : Unit → ℂ, bubbleChecked c compute = Except.error e := by
  have hval : ∃ e : BubbleConfigError, validateBubbleConfig c = Except.error e := by
    unfold validateBubbleConfig
    by_cases h1 : c.beta ≤ 0
    · exact ⟨BubbleConfigError.nonpositiveBeta, by rw [if_pos h1]⟩
    · rw [if_neg h1]
      by_cases h2 : c.fermionSize ≠ c.bosonSize
      · exact ⟨BubbleConfigError.mismatchedSizes, by rw [if_pos h2]⟩
      · rw [if_neg h2]
        by_cases h3 : c.fermionBeta ≠ c.beta ∨ c.bosonBeta ≠ c.beta
        · exact ⟨BubbleConfigError.mismatchedBeta, by rw [if_pos h3]⟩
        · push_neg at h1 h2 h3
          exact absurd h (by push_neg; exact ⟨by linarith, h2, h3.1, h3.2⟩)
  obtain ⟨e, he⟩ := hval
  refine ⟨e, he, fun compute => ?_⟩
  unfold bubbleChecked
  rw [he]
  rfl

/-- Witness for claim C7 on the invalid configuration with beta = 0 (the other
fields as in the notebook: mesh betas 4, sizes 40). -/
theorem bubble_invalid_config_fails_witness :
    ((0 : ℚ) ≤ 0 ∨ (40 : ℕ) ≠ 40 ∨ (4 : ℚ) ≠ 0 ∨ (4 : ℚ) ≠ 0) ∧
    (∃ e : BubbleConfigError,
      validateBubbleConfig ⟨0, 4, 4, 40, 40⟩ = Except.error e ∧
      ∀ compute : Unit → ℂ, bubbleChecked ⟨0, 4, 4, 40, 40⟩ compute = Except.error e) :=
  ⟨Or.inl le_rfl, bubble_invalid_config_fails ⟨0, 4, 4, 40, 40⟩ (Or.inl le_rfl)⟩

/-- Claim C8: on the symmetric imaginary-time mesh, beta - tau is itself a
mesh point for every mesh point tau, and the negated lattice site -r lands on
a lattice mesh sample, so the reflected-point lookup of cell 16 never
interpolates between samples. -/
theorem reflected_point_on_mesh (beta : ℝ) (ntau nk : ℕ)
    (hn : 2 ≤ ntau) (hk : 0 < nk) :
    (∀ i < ntau, ∃ j < ntau, beta - tauPoint beta ntau i = tauPoint beta ntau j) ∧
    (∀ r : Kmesh nk, ∃ r' : Kmesh nk,
      (ZMod.val r'.1 + ZMod.val r.1) % nk = 0 ∧ (ZMod.val r'.2 + ZMod.val r.2) % nk = 0) := by
  haveI : NeZero nk := ⟨hk.ne'⟩
  constructor
  · intro i hi
    refine ⟨ntau - 1 - i, by omega, ?_⟩
    unfold tauPoint
    have h1 : (1 : ℕ) ≤ ntau := by omega
    have hi' : i ≤ ntau - 1 := by omega
    have hden : ((ntau : ℝ) - 1) ≠ 0 := by
      have h2 : (2 : ℝ) ≤ (ntau : ℝ) := by exact_mod_cast hn
      linarith
    rw [Nat.cast_sub hi', Nat.cast_sub h1]
    field_simp
    ring
  · intro r
    refine ⟨-r, ?_, ?_⟩
    · have h0 : ((ZMod.val (-r.1) + ZMod.val r.1 : ℕ) : ZMod nk) = 0 := by
        push_cast [ZMod.natCast_zmod_val]
        ring
      obtain ⟨c, hc⟩ := (ZMod.natCast_zmod_eq_zero_iff_dvd _ _).mp h0
      simp only [Prod.fst_neg]
      rw [hc]
      exact Nat.mul_mod_right nk c
    · have h0 : ((ZMod.val (-r.2) + ZMod.val r.2 : ℕ) : ZMod nk) = 0 := by
        push_cast [ZMod.natCast_zmod_val]
        ring
      obtain ⟨c, hc⟩ := (ZMod.natCast_zmod_eq_zero_iff_dvd _ _).mp h0
      simp only [Prod.snd_neg]
      rw [hc]
      exact Nat.mul_mod_right nk c

/-- Witness for claim C8 at the notebook's parameters (beta = 4, a 40-point
time mesh, nk = 64). -/
theorem reflected_point_on_mesh_witness :
    ((2 : ℕ) ≤ 40 ∧ (0 : ℕ) < 64) ∧
    ((∀ i < 40, ∃ j < 40, (4 : ℝ) - tauPoint 4 40 i = tauPoint 4 40 j) ∧
     (∀ r : Kmesh 64, ∃ r' : Kmesh 64,
       (ZMod.val r'.1 + ZMod.val r.1) % 64 = 0 ∧ (ZMod.val r'.2 + ZMod.val r.2) % 64 = 0)) :=
  ⟨⟨by norm_num, by norm_num⟩, reflected_point_on_mesh 4 40 64 (by norm_num) (by norm_num)⟩

/-! ## Phase arithmetic and orthogonality -/

/-- The phase at index zero is one. -/
theorem ph_zero (N : ℕ) : ph N 0 = 1 := by
  simp [ph]

/-- The phase is additive in its index. -/
theorem ph_add (N : ℕ) (x y : ℤ) : ph N (x + y) = ph N x * ph N y := by
  unfold ph
  rw [← Complex.exp_add]
  congr 1
  push_cast
  ring

/-- A full multiple of N contributes a trivial phase. -/
theorem ph_nmul (N : ℕ) (c : ℤ) : ph N ((N : ℤ) * c) = 1 := by
  rcases Nat.eq_zero_or_pos N with h0 | hN
  · subst h0
    simp [ph]
  · unfold ph
    have hNC : (N : ℂ) ≠ 0 := Nat.cast_ne_zero.mpr hN.ne'
    have harg : 2 * (Real.pi : ℂ) * Complex.I * (((N : ℤ) * c : ℤ) : ℂ) / (N : ℂ)
        = (c : ℂ) * (2 * (Real.pi : ℂ) * Complex.I) := by
      push_cast
      field_simp
      ring
    rw [harg]
    exact Complex.exp_int_mul_two_pi_mul_I c

/-- The phase depends on its index only modulo N. -/
theorem ph_congr (N : ℕ) {x y : ℤ} (h : (N : ℤ) ∣ (x - y)) : ph N x = ph N y := by
  obtain ⟨c, hc⟩ := h
  have hx : x = y + (N : ℤ) * c := by omega
  rw [hx, ph_add, ph_nmul, mul_one]

/-- The phase at d * l is the l-th power of the phase at d. -/
theorem ph_pow (N : ℕ) (d : ℤ) (l : ℕ) : ph N (d * (l : ℤ)) = ph N d ^ l := by
  induction l with
  | zero => simp [ph_zero]
  | succ j ih =>
      have h : d * ((j + 1 : ℕ) : ℤ) = d * (j : ℤ) + d := by push_cast; ring
      rw [h, ph_add, ih, pow_succ]

/-- The phase at d is trivial exactly when N divides d. -/
theorem ph_eq_one_iff (N : ℕ) (hN : 0 < N) (d : ℤ) : ph N d = 1 ↔ (N : ℤ) ∣ d := by
  constructor
  · intro h
    unfold ph at h
    rw [Complex.exp_eq_one_iff] at h
    obtain ⟨n, hn⟩ := h
    have hNR : (N : ℝ) ≠ 0 := Nat.cast_ne_zero.mpr hN.ne'
    have e1 : ((2 * Real.pi * (d : ℝ) / N : ℝ) : ℂ) * Complex.I
        = 2 * (Real.pi : ℂ) * Complex.I * ((d : ℤ) : ℂ) / (N : ℂ) := by
      push_cast
      field_simp
      ring
    have e2 : ((2 * Real.pi * (n : ℝ) : ℝ) : ℂ) * Complex.I
        = ((n : ℤ) : ℂ) * (2 * (Real.pi : ℂ) * Complex.I) := by
      push_cast
      ring
    have h2 : ((2 * Real.pi * (d : ℝ) / N : ℝ) : ℂ) * Complex.I
        = ((2 * Real.pi * (n : ℝ) : ℝ) : ℂ) * Complex.I := by
      rw [e1, e2]
      exact hn
    have h3 := mul_right_cancel₀ Complex.I_ne_zero h2
    have h4 : 2 * Real.pi * (d : ℝ) / N = 2 * Real.pi * (n : ℝ) := Complex.ofReal_inj.mp h3
    have h2pi : (2 * Real.pi) ≠ 0 := mul_ne_zero two_ne_zero Real.pi_ne_zero
    have h6 : 2 * Real.pi * (d : ℝ) = 2 * Real.pi * ((n : ℝ) * N) := by
      field_simp at h4
      linarith
    have h5 : (d : ℝ) = (n : ℝ) * N := mul_left_cancel₀ h2pi h6
    have h7 : d = n * (N : ℤ) := by exact_mod_cast h5
    exact ⟨n, by rw [h7]; ring⟩
  · intro h
    have h0 : (N : ℤ) ∣ (d - 0) := by simpa using h
    exact (ph_congr N h0).trans (ph_zero N)

/-- Geometric-sum orthogonality: the sum of the phases d * l over one period
is N when N divides d and zero otherwise. -/
theorem ph_geom_sum (N : ℕ) (hN : 0 < N) (d : ℤ) :
    ∑ l ∈ Finset.range N, ph N (d * (l : ℤ)) = if (N : ℤ) ∣ d then (N : ℂ) else 0 := by
  by_cases h : (N : ℤ) ∣ d
  · rw [if_pos h]
    have hone : ∀ l ∈ Finset.range N, ph N (d * (l : ℤ)) = 1 :=
      fun l _ => (ph_eq_one_iff N hN _).mpr (h.mul_right _)
    rw [Finset.sum_congr rfl hone]
    simp
  · rw [if_neg h]
    have hz : ph N d ≠ 1 := fun hc => h ((ph_eq_one_iff N hN d).mp hc)
    have hrw : ∀ l ∈ Finset.range N, ph N (d * (l : ℤ)) = ph N d ^ l :=
      fun l _ => ph_pow N d l
    rw [Finset.sum_congr rfl hrw, geom_sum_eq hz]
    have hpN : ph N d ^ N = 1 := by
      rw [← ph_pow]
      exact (ph_eq_one_iff N hN _).mpr ⟨d, by ring⟩
    rw [hpN]
    simp

/-- A sum over the cyclic mesh equals the sum over representatives. -/
theorem sum_zmod_val (N : ℕ) [NeZero N] (f : ℕ → ℂ) :
    ∑ c : ZMod N, f (ZMod.val c) = ∑ j ∈ Finset.range N, f j := by
  apply Finset.sum_nbij' (fun c => ZMod.val c) (fun j => (j : ZMod N))
  · intro a _
    exact Finset.mem_range.mpr (ZMod.val_lt a)
  · intro a _
    exact Finset.mem_univ _
  · intro a _
    exact ZMod.natCast_zmod_val a
  · intro a ha
    exact ZMod.val_cast_of_lt (Finset.mem_range.mp ha)
  · intro a _
    rfl

/-- Orthogonality over the cyclic mesh. -/
theorem zmod_ph_sum (N : ℕ) [NeZero N] (d : ℤ) :
    ∑ c : ZMod N, ph N (d * (ZMod.val c : ℤ)) = if (N : ℤ) ∣ d then (N : ℂ) else 0 := by
  rw [sum_zmod_val N (fun j => ph N (d * (j : ℤ)))]
  exact ph_geom_sum N (Nat.pos_of_ne_zero (NeZero.ne N)) d

/-- Orthogonality over the two-dimensional momentum mesh. -/
theorem kspace_ph_sum (nk : ℕ) [NeZero nk] (d1 d2 : ℤ) :
    ∑ r : Kmesh nk, ph nk (d1 * (ZMod.val r.1 : ℤ) + d2 * (ZMod.val r.2 : ℤ))
      = (if (nk : ℤ) ∣ d1 then (nk : ℂ) else 0) * (if (nk : ℤ) ∣ d2 then (nk : ℂ) else 0) := by
  rw [Fintype.sum_prod_type]
  simp_rw [ph_add]
  rw [← Finset.sum_mul_sum]
  rw [zmod_ph_sum, zmod_ph_sum]

/-! ## The frequency window and its wrap -/

/-- The wrap lands in the fermionic window. -/
theorem wrapW_mem (niw : ℕ) (hw : 0 < niw) (x : ℤ) : wrapW niw x ∈ Wmesh niw := by
  unfold wrapW Wmesh
  have h2 : (0 : ℤ) < 2 * (niw : ℤ) := by omega
  have hnn := Int.emod_nonneg (x + niw) h2.ne'
  have hlt := Int.emod_lt_of_pos (x + niw) h2
  rw [Finset.mem_Icc]
  omega

/-- The wrap preserves the index modulo the window length. -/
theorem wrapW_modeq (niw : ℕ) (x : ℤ) : (2 * (niw : ℤ)) ∣ (x - wrapW niw x) := by
  unfold wrapW
  have h : x - ((x + niw) % (2 * (niw : ℤ)) - niw)
      = (x + niw) - (x + niw) % (2 * (niw : ℤ)) := by ring
  rw [h]
  exact ⟨(x + niw) / (2 * (niw : ℤ)), by rw [Int.emod_def]; ring⟩

/-- A window element congruent to x modulo the window length is exactly the
wrap of x. -/
theorem wrapW_eq_iff (niw : ℕ) (hw : 0 < niw) (x m : ℤ) (hm : m ∈ Wmesh niw) :
    (2 * (niw : ℤ)) ∣ (x - m) ↔ m = wrapW niw x := by
  constructor
  · intro h
    have h1 := wrapW_modeq niw x
    have h2 : (2 * (niw : ℤ)) ∣ (wrapW niw x - m) := by
      have hd := dvd_sub h h1
      have he : (x - m) - (x - wrapW niw x) = wrapW niw x - m := by ring
      rwa [he] at hd
    by_contra hne
    have hmem := wrapW_mem niw hw x
    rw [Wmesh, Finset.mem_Icc] at hm hmem
    have hd0 : wrapW niw x - m ≠ 0 := sub_ne_zero.mpr (fun hh => hne hh.symm)
    have habs : |wrapW niw x - m| < 2 * (niw : ℤ) := by
      rw [abs_lt]
      omega
    have hdvd_abs : (2 * (niw : ℤ)) ∣ |wrapW niw x - m| := (dvd_abs _ _).mpr h2
    have := Int.le_of_dvd (abs_pos.mpr hd0) hdvd_abs
    omega
  · rintro rfl
    exact wrapW_modeq niw x

/-- The wrap fixes window elements. -/
theorem wrapW_fix (niw : ℕ) (hw : 0 < niw) {m : ℤ} (hm : m ∈ Wmesh niw) :
    wrapW niw m = m :=
  ((wrapW_eq_iff niw hw m m hm).mp (by simp)).symm

/-- The exponential of minus an odd multiple of pi i is minus one. -/
theorem exp_neg_odd_pi_mul_I (m : ℤ) :
    Complex.exp (-((2 * ((m : ℤ) : ℂ) + 1) * (Real.pi : ℂ) * Complex.I)) = -1 := by
  have h : -((2 * ((m : ℤ) : ℂ) + 1) * (Real.pi : ℂ) * Complex.I)
      = ((-m - 1 : ℤ) : ℂ) * (2 * (Real.pi : ℂ) * Complex.I) + (Real.pi : ℂ) * Complex.I := by
    push_cast
    ring
  rw [h, Complex.exp_add, Complex.exp_int_mul_two_pi_mul_I, one_mul, Complex.exp_pi_mul_I]

/-- Merging the three time-axis phase factors of the bubble at a time sample:
the bosonic forward phase, the fermionic phase of G0(r, tau) and the
fermionic phase of G0(-r, beta - tau) combine into a pure lattice phase times
the antiperiodic sign. -/
theorem time_phase_merge (beta : ℝ) (hb : beta ≠ 0) (niw : ℕ) (hw : 0 < niw)
    (n m m' : ℤ) (l : ℕ) :
    Complex.exp (Complex.I * ((wBose beta n * tauSample beta niw l : ℝ) : ℂ))
      * Complex.exp (-(Complex.I * ((wFermi beta m * tauSample beta niw l : ℝ) : ℂ)))
      * Complex.exp (-(Complex.I * ((wFermi beta m' * (beta - tauSample beta niw l) : ℝ) : ℂ)))
    = -ph (2 * niw) ((n - m + m') * (l : ℤ)) := by
  have hbc : (beta : ℂ) ≠ 0 := Complex.ofReal_ne_zero.mpr hb
  have hwc : ((niw : ℕ) : ℂ) ≠ 0 := Nat.cast_ne_zero.mpr hw.ne'
  rw [← Complex.exp_add, ← Complex.exp_add]
  have harg : Complex.I * ((wBose beta n * tauSample beta niw l : ℝ) : ℂ)
        + -(Complex.I * ((wFermi beta m * tauSample beta niw l : ℝ) : ℂ))
        + -(Complex.I * ((wFermi beta m' * (beta - tauSample beta niw l) : ℝ) : ℂ))
      = 2 * (Real.pi : ℂ) * Complex.I * (((n - m + m') * (l : ℤ) : ℤ) : ℂ) / ((2 * niw : ℕ) : ℂ)
        + -((2 * ((m' : ℤ) : ℂ) + 1) * (Real.pi : ℂ) * Complex.I) := by
    unfold wBose wFermi tauSample
    push_cast
    field_simp
    ring
  rw [harg, Complex.exp_add, exp_neg_odd_pi_mul_I]
  unfold ph
  ring

/-- Merging the two time-axis phase factors of the round trip. -/
theorem time_phase_merge_rt (beta : ℝ) (hb : beta ≠ 0) (niw : ℕ) (hw : 0 < niw)
    (m m' : ℤ) (l : ℕ) :
    Complex.exp (Complex.I * ((wFermi beta m * tauSample beta niw l : ℝ) : ℂ))
      * Complex.exp (-(Complex.I * ((wFermi beta m' * tauSample beta niw l : ℝ) : ℂ)))
    = ph (2 * niw) ((m - m') * (l : ℤ)) := by
  have hbc : (beta : ℂ) ≠ 0 := Complex.ofReal_ne_zero.mpr hb
  have hwc : ((niw : ℕ) : ℂ) ≠ 0 := Nat.cast_ne_zero.mpr hw.ne'
  rw [← Complex.exp_add]
  have harg : Complex.I * ((wFermi beta m * tauSample beta niw l : ℝ) : ℂ)
        + -(Complex.I * ((wFermi beta m' * tauSample beta niw l : ℝ) : ℂ))
      = 2 * (Real.pi : ℂ) * Complex.I * (((m - m') * (l : ℤ) : ℤ) : ℂ) / ((2 * niw : ℕ) : ℂ) := by
    unfold wFermi tauSample
    push_cast
    field_simp
    ring
  rw [harg]
  rfl

/-- The sum of the values of a site index and of its negation is divisible by
the lattice period. -/
theorem zmod_neg_val_add (nk : ℕ) [NeZero nk] (a : ZMod nk) :
    (nk : ℤ) ∣ ((ZMod.val (-a) : ℤ) + (ZMod.val a : ℤ)) := by
  have h0 : ((ZMod.val (-a) + ZMod.val a : ℕ) : ZMod nk) = 0 := by
    push_cast [ZMod.natCast_zmod_val]
    ring
  obtain ⟨c, hc⟩ := (ZMod.natCast_zmod_eq_zero_iff_dvd _ _).mp h0
  exact ⟨(c : ℤ), by exact_mod_cast hc⟩

/-- Merging the three momentum-axis phase factors of the bubble at a lattice
site: the two forward phases and the backward phase combine into a pure phase
whose index is linear in the site coordinates. -/
theorem space_phase_merge (nk : ℕ) [NeZero nk] (q k k' r : Kmesh nk) :
    ph nk (kdot nk k r) * ph nk (kdot nk k' (-r)) * ph nk (-(kdot nk q r))
      = ph nk (((ZMod.val k.1 : ℤ) - ZMod.val k'.1 - ZMod.val q.1) * (ZMod.val r.1 : ℤ)
          + ((ZMod.val k.2 : ℤ) - ZMod.val k'.2 - ZMod.val q.2) * (ZMod.val r.2 : ℤ)) := by
  rw [← ph_add, ← ph_add]
  apply ph_congr
  simp only [kdot, Prod.fst_neg, Prod.snd_neg]
  obtain ⟨c1, hc1⟩ := zmod_neg_val_add nk r.1
  obtain ⟨c2, hc2⟩ := zmod_neg_val_add nk r.2
  refine ⟨(ZMod.val k'.1 : ℤ) * c1 + (ZMod.val k'.2 : ℤ) * c2, ?_⟩
  linear_combination (ZMod.val k'.1 : ℤ) * hc1 + (ZMod.val k'.2 : ℤ) * hc2

/-- Divisibility of a difference of site values detects equality on the
cyclic mesh. -/
theorem zmod_sub_dvd_iff (nk : ℕ) [NeZero nk] (a b c : ZMod nk) :
    ((nk : ℤ) ∣ ((ZMod.val a : ℤ) - ZMod.val b - ZMod.val c)) ↔ b = a - c := by
  rw [← ZMod.intCast_zmod_eq_zero_iff_dvd]
  have hcast : (((ZMod.val a : ℤ) - ZMod.val b - ZMod.val c : ℤ) : ZMod nk) = a - b - c := by
    push_cast [ZMod.natCast_zmod_val]
    ring
  rw [hcast]
  constructor
  · intro h
    linear_combination -h
  · rintro rfl
    ring

/-- The pair of componentwise divisibilities detects the momentum
conservation constraint of the bubble. -/
theorem kdelta_iff (nk : ℕ) [NeZero nk] (k k' q : Kmesh nk) :
    (((nk : ℤ) ∣ ((ZMod.val k.1 : ℤ) - ZMod.val k'.1 - ZMod.val q.1)) ∧
     ((nk : ℤ) ∣ ((ZMod.val k.2 : ℤ) - ZMod.val k'.2 - ZMod.val q.2))) ↔ k' = k - q := by
  rw [zmod_sub_dvd_iff, zmod_sub_dvd_iff]
  constructor
  · rintro ⟨h1, h2⟩
    exact Prod.ext h1 h2
  · rintro rfl
    exact ⟨rfl, rfl⟩

/-- Backward lattice transform of a product of two forward transforms: the
discrete convolution theorem on the momentum mesh.  This is the momentum-axis
content of the bubble: the site sum enforces momentum conservation
exactly. -/
theorem conv_collapse_space (nk : ℕ) [NeZero nk] (f g : Kmesh nk → ℂ) (q : Kmesh nk) :
    fourierKinv nk (fun r => fourierK nk f r * fourierK nk g (-r)) q
      = ∑ k : Kmesh nk, f (k + q) * g k := by
  have hnkc : (nk : ℂ) ≠ 0 := Nat.cast_ne_zero.mpr (NeZero.ne nk)
  unfold fourierKinv fourierK
  have step1 : ∀ r : Kmesh nk,
      ph nk (-(kdot nk q r))
          * ((∑ k : Kmesh nk, ph nk (kdot nk k r) * f k)
            * (∑ k' : Kmesh nk, ph nk (kdot nk k' (-r)) * g k'))
        = ∑ k : Kmesh nk, ∑ k' : Kmesh nk,
            ph nk (((ZMod.val k.1 : ℤ) - ZMod.val k'.1 - ZMod.val q.1) * (ZMod.val r.1 : ℤ)
                + ((ZMod.val k.2 : ℤ) - ZMod.val k'.2 - ZMod.val q.2) * (ZMod.val r.2 : ℤ))
              * (f k * g k') := by
    intro r
    rw [Finset.sum_mul_sum, Finset.mul_sum]
    apply Finset.sum_congr rfl
    intro k _
    rw [Finset.mul_sum]
    apply Finset.sum_congr rfl
    intro k' _
    rw [← space_phase_merge nk q k k' r]
    ring
  rw [Finset.sum_congr rfl (fun r _ => step1 r)]
  rw [Finset.sum_comm]
  rw [Finset.sum_congr rfl (fun k _ => Finset.sum_comm)]
  have step2 : ∀ k k' : Kmesh nk,
      (∑ r : Kmesh nk,
        ph nk (((ZMod.val k.1 : ℤ) - ZMod.val k'.1 - ZMod.val q.1) * (ZMod.val r.1 : ℤ)
            + ((ZMod.val k.2 : ℤ) - ZMod.val k'.2 - ZMod.val q.2) * (ZMod.val r.2 : ℤ))
          * (f k * g k'))
        = (if k' = k - q then ((nk : ℂ) ^ 2) * (f k * g k') else 0) := by
    intro k k'
    rw [← Finset.sum_mul, kspace_ph_sum]
    by_cases h : k' = k - q
    · have hd := (kdelta_iff nk k k' q).mpr h
      rw [if_pos h, if_pos hd.1, if_pos hd.2]
      ring
    · rw [if_neg h]
      have hnot : ¬(((nk : ℤ) ∣ ((ZMod.val k.1 : ℤ) - ZMod.val k'.1 - ZMod.val q.1)) ∧
          ((nk : ℤ) ∣ ((ZMod.val k.2 : ℤ) - ZMod.val k'.2 - ZMod.val q.2))) :=
        fun hc => h ((kdelta_iff nk k k' q).mp hc)
      by_cases h1 : (nk : ℤ) ∣ ((ZMod.val k.1 : ℤ) - ZMod.val k'.1 - ZMod.val q.1)
      · have h2 : ¬(nk : ℤ) ∣ ((ZMod.val k.2 : ℤ) - ZMod.val k'.2 - ZMod.val q.2) :=
          fun h2 => hnot ⟨h1, h2⟩
        rw [if_pos h1, if_neg h2]
        ring
      · rw [if_neg h1]
        ring
  rw [Finset.sum_congr rfl (fun k _ => Finset.sum_congr rfl (fun k' _ => step2 k k'))]
  have step3 : ∀ k : Kmesh nk,
      (∑ k' : Kmesh nk, if k' = k - q then ((nk : ℂ) ^ 2) * (f k * g k') else 0)
        = ((nk : ℂ) ^ 2) * (f k * g (k - q)) := by
    intro k
    rw [Finset.sum_ite_eq' Finset.univ (k - q) (fun k' => ((nk : ℂ) ^ 2) * (f k * g k'))]
    rw [if_pos (Finset.mem_univ _)]
  rw [Finset.sum_congr rfl (fun k _ => step3 k)]
  rw [Finset.mul_sum]
  have step4 : ∀ k : Kmesh nk,
      1 / (nk : ℂ) ^ 2 * (((nk : ℂ) ^ 2) * (f k * g (k - q))) = f k * g (k - q) := by
    intro k
    field_simp
  rw [Finset.sum_congr rfl (fun k _ => step4 k)]
  have hre := Equiv.sum_comp (Equiv.addRight q) (fun k => f k * g (k - q))
  rw [← hre]
  apply Finset.sum_congr rfl
  intro k _
  simp only [Equiv.coe_addRight]
  rw [add_sub_cancel_right]

/-- Backward bosonic time transform of the product of a forward fermionic
transform and its reflected partner: the discrete convolution theorem on the
time axis.  The antiperiodic boundary factor produces the overall minus sign,
and the time-sample sum enforces frequency conservation up to aliasing into
the fermionic window. -/
theorem conv_collapse_time (beta : ℝ) (hb : 0 < beta) (niw : ℕ) (hw : 0 < niw)
    (a b : ℤ → ℂ) (n : ℤ) :
    fourierTinvBoson beta niw
        (fun tau => fourierT beta niw a tau * fourierT beta niw b (beta - tau)) n
      = -(1 / (beta : ℂ)) * ∑ m ∈ Wmesh niw, a (wrapW niw (m + n)) * b m := by
  have hbc : (beta : ℂ) ≠ 0 := Complex.ofReal_ne_zero.mpr hb.ne'
  have hN2 : 0 < 2 * niw := by omega
  have hNc : ((2 * niw : ℕ) : ℂ) ≠ 0 := Nat.cast_ne_zero.mpr hN2.ne'
  have hNcast : ((2 * niw : ℕ) : ℤ) = 2 * (niw : ℤ) := by push_cast; ring
  unfold fourierTinvBoson fourierT
  simp only []
  have step1 : ∀ l ∈ Finset.range (2 * niw),
      Complex.exp (Complex.I * ((wBose beta n * tauSample beta niw l : ℝ) : ℂ))
          * ((1 / (beta : ℂ) * ∑ m ∈ Wmesh niw,
              Complex.exp (-(Complex.I * ((wFermi beta m * tauSample beta niw l : ℝ) : ℂ))) * a m)
            * (1 / (beta : ℂ) * ∑ m' ∈ Wmesh niw,
              Complex.exp (-(Complex.I * ((wFermi beta m' * (beta - tauSample beta niw l) : ℝ) : ℂ))) * b m'))
        = ∑ m ∈ Wmesh niw, ∑ m' ∈ Wmesh niw,
            (Complex.exp (Complex.I * ((wBose beta n * tauSample beta niw l : ℝ) : ℂ))
              * Complex.exp (-(Complex.I * ((wFermi beta m * tauSample beta niw l : ℝ) : ℂ)))
              * Complex.exp (-(Complex.I * ((wFermi beta m' * (beta - tauSample beta niw l) : ℝ) : ℂ))))
            * (1 / (beta : ℂ) * (1 / (beta : ℂ)) * (a m * b m')) := by
    intro l _
    rw [mul_mul_mul_comm, Finset.sum_mul_sum, ← mul_assoc, Finset.mul_sum]
    apply Finset.sum_congr rfl
    intro m _
    rw [Finset.mul_sum]
    apply Finset.sum_congr rfl
    intro m' _
    ring
  rw [Finset.sum_congr rfl step1]
  rw [Finset.sum_comm]
  rw [Finset.sum_congr rfl (fun m _ => Finset.sum_comm)]
  rw [Finset.sum_comm]
  have step2 : ∀ m' ∈ Wmesh niw, ∀ m ∈ Wmesh niw,
      (∑ l ∈ Finset.range (2 * niw),
        (Complex.exp (Complex.I * ((wBose beta n * tauSample beta niw l : ℝ) : ℂ))
          * Complex.exp (-(Complex.I * ((wFermi beta m * tauSample beta niw l : ℝ) : ℂ)))
          * Complex.exp (-(Complex.I * ((wFermi beta m' * (beta - tauSample beta niw l) : ℝ) : ℂ))))
        * (1 / (beta : ℂ) * (1 / (beta : ℂ)) * (a m * b m')))
      = (if m = wrapW niw (m' + n)
          then -(((2 * niw : ℕ) : ℂ) * (1 / (beta : ℂ) * (1 / (beta : ℂ)) * (a m * b m')))
          else 0) := by
    intro m' hm' m hm
    have hmerge : ∀ l ∈ Finset.range (2 * niw),
        (Complex.exp (Complex.I * ((wBose beta n * tauSample beta niw l : ℝ) : ℂ))
          * Complex.exp (-(Complex.I * ((wFermi beta m * tauSample beta niw l : ℝ) : ℂ)))
          * Complex.exp (-(Complex.I * ((wFermi beta m' * (beta - tauSample beta niw l) : ℝ) : ℂ))))
        * (1 / (beta : ℂ) * (1 / (beta : ℂ)) * (a m * b m'))
        = -(ph (2 * niw) ((n - m + m') * (l : ℤ))
            * (1 / (beta : ℂ) * (1 / (beta : ℂ)) * (a m * b m'))) := by
      intro l _
      rw [time_phase_merge beta hb.ne' niw hw n m m' l]
      ring
    rw [Finset.sum_congr rfl hmerge, Finset.sum_neg_distrib, ← Finset.sum_mul,
        ph_geom_sum (2 * niw) hN2 (n - m + m')]
    have hiff : (((2 * niw : ℕ) : ℤ) ∣ (n - m + m')) ↔ m = wrapW niw (m' + n) := by
      rw [hNcast, show (n - m + m') = ((m' + n) - m) from by ring]
      exact wrapW_eq_iff niw hw (m' + n) m hm
    rw [if_congr hiff rfl rfl, ite_mul, zero_mul]
    by_cases hcase : m = wrapW niw (m' + n)
    · rw [if_pos hcase, if_pos hcase]
    · rw [if_neg hcase, if_neg hcase, neg_zero]
  rw [Finset.sum_congr rfl
      (fun m' hm' => Finset.sum_congr rfl (fun m hm => step2 m' hm' m hm))]
  have step3 : ∀ m' ∈ Wmesh niw,
      (∑ m ∈ Wmesh niw,
        if m = wrapW niw (m' + n)
          then -(((2 * niw : ℕ) : ℂ) * (1 / (beta : ℂ) * (1 / (beta : ℂ)) * (a m * b m')))
          else 0)
      = -(((2 * niw : ℕ) : ℂ)
          * (1 / (beta : ℂ) * (1 / (beta : ℂ)) * (a (wrapW niw (m' + n)) * b m'))) := by
    intro m' hm'
    rw [Finset.sum_ite_eq' (Wmesh niw) (wrapW niw (m' + n))
        (fun m => -(((2 * niw : ℕ) : ℂ) * (1 / (beta : ℂ) * (1 / (beta : ℂ)) * (a m * b m'))))]
    rw [if_pos (wrapW_mem niw hw (m' + n))]
  rw [Finset.sum_congr rfl step3]
  rw [Finset.mul_sum, Finset.mul_sum]
  apply Finset.sum_congr rfl
  intro m' _
  have hniwc : (niw : ℂ) ≠ 0 := Nat.cast_ne_zero.mpr hw.ne'
  have hNcastC : ((2 * niw : ℕ) : ℂ) = 2 * (niw : ℂ) := by push_cast; ring
  rw [hNcastC, mul_neg, neg_mul, neg_inj]
  field_simp
  ring

/-- Linearity of the backward lattice transform over a constant multiple of a
finite sum of functions. -/
theorem fourierKinv_const_sum (nk : ℕ) [NeZero nk] (W : Finset ℤ) (c : ℂ)
    (F : ℤ → Kmesh nk → ℂ) (q : Kmesh nk) :
    fourierKinv nk (fun r => c * ∑ m ∈ W, F m r) q
      = c * ∑ m ∈ W, fourierKinv nk (F m) q := by
  unfold fourierKinv
  have step1 : ∀ r : Kmesh nk,
      ph nk (-(kdot nk q r)) * (c * ∑ m ∈ W, F m r)
        = ∑ m ∈ W, c * (ph nk (-(kdot nk q r)) * F m r) := by
    intro r
    simp only [Finset.mul_sum]
    apply Finset.sum_congr rfl
    intro m _
    ring
  rw [Finset.sum_congr rfl (fun r _ => step1 r)]
  rw [Finset.sum_comm]
  rw [Finset.mul_sum, Finset.mul_sum]
  apply Finset.sum_congr rfl
  intro m _
  rw [← Finset.mul_sum]
  ring

/-- The first backward stage of the bubble pipeline in closed form: the
time-to-bosonic-frequency transform of chi0(r, tau) collapses to the single
frequency sum with the shifted index aliased into the fermionic window. -/
theorem chi0riW_collapse (nk : ℕ) [NeZero nk] (niw : ℕ) (beta mu t : ℝ)
    (hb : 0 < beta) (hw : 0 < niw) (r : Kmesh nk) (n : ℤ) :
    chi0riW nk niw beta mu t r n
      = -(1 / (beta : ℂ)) * ∑ m ∈ Wmesh niw,
          G0r nk beta mu t r (wrapW niw (m + n)) * G0r nk beta mu t (-r) m := by
  have hfun : chi0rt nk niw beta mu t r
      = fun tau => fourierT beta niw (G0r nk beta mu t r) tau
          * fourierT beta niw (G0r nk beta mu t (-r)) (beta - tau) := by
    funext tau
    rfl
  unfold chi0riW
  rw [hfun]
  exact conv_collapse_time beta hb niw hw _ _ n

/-- The susceptibility of the real-space/imaginary-time route equals the
brute-force double sum with the shifted frequency index wrapped into the
fermionic window. -/
theorem chi0conv_collapse (nk : ℕ) [NeZero nk] (niw : ℕ) (beta mu t : ℝ)
    (hb : 0 < beta) (hw : 0 < niw) (q : Kmesh nk) (n : ℤ) :
    chi0conv nk niw beta mu t q n = chi0bruteWrapped nk niw beta mu t q n := by
  unfold chi0conv
  have h1 : (fun r => chi0riW nk niw beta mu t r n)
      = fun r => -(1 / (beta : ℂ)) * ∑ m ∈ Wmesh niw,
          G0r nk beta mu t r (wrapW niw (m + n)) * G0r nk beta mu t (-r) m := by
    funext r
    exact chi0riW_collapse nk niw beta mu t hb hw r n
  rw [h1]
  rw [fourierKinv_const_sum nk (Wmesh niw) (-(1 / (beta : ℂ)))
      (fun m r => G0r nk beta mu t r (wrapW niw (m + n)) * G0r nk beta mu t (-r) m) q]
  have h2 : ∀ m ∈ Wmesh niw,
      fourierKinv nk
          (fun r => G0r nk beta mu t r (wrapW niw (m + n)) * G0r nk beta mu t (-r) m) q
        = ∑ k : Kmesh nk,
            G0k nk beta mu t (k + q) (wrapW niw (m + n)) * G0k nk beta mu t k m := by
    intro m _
    have hfun : (fun r => G0r nk beta mu t r (wrapW niw (m + n)) * G0r nk beta mu t (-r) m)
        = fun r => fourierK nk (fun k => G0k nk beta mu t k (wrapW niw (m + n))) r
            * fourierK nk (fun k => G0k nk beta mu t k m) (-r) := by
      funext r
      rfl
    rw [hfun]
    exact conv_collapse_space nk _ _ q
  rw [Finset.sum_congr rfl h2]
  unfold chi0bruteWrapped
  congr 1
  rw [Finset.sum_comm]
  apply Finset.sum_congr rfl
  intro k _
  apply Finset.sum_congr rfl
  intro m _
  ring

/-- At the zero bosonic frequency the wrap is the identity on the window, so
the wrapped brute force reduces to the brute force. -/
theorem bruteWrapped_zero (nk : ℕ) [NeZero nk] (niw : ℕ) (beta mu t : ℝ)
    (hw : 0 < niw) (q : Kmesh nk) :
    chi0bruteWrapped nk niw beta mu t q 0 = chi0brute nk niw beta mu t q 0 := by
  unfold chi0bruteWrapped chi0brute
  congr 1
  apply Finset.sum_congr rfl
  intro k _
  apply Finset.sum_congr rfl
  intro m hm
  rw [add_zero, wrapW_fix niw hw hm]

/-- Round trip along the momentum axis: the backward transform of the forward
transform is the identity at every mesh point. -/
theorem fourierK_roundtrip (nk : ℕ) [NeZero nk] (g : Kmesh nk → ℂ) (k : Kmesh nk) :
    fourierKinv nk (fourierK nk g) k = g k := by
  have hnkc : (nk : ℂ) ≠ 0 := Nat.cast_ne_zero.mpr (NeZero.ne nk)
  unfold fourierKinv fourierK
  have step1 : ∀ r : Kmesh nk,
      ph nk (-(kdot nk k r)) * (∑ k' : Kmesh nk, ph nk (kdot nk k' r) * g k')
        = ∑ k' : Kmesh nk,
            ph nk (((ZMod.val k'.1 : ℤ) - ZMod.val k.1) * (ZMod.val r.1 : ℤ)
                + ((ZMod.val k'.2 : ℤ) - ZMod.val k.2) * (ZMod.val r.2 : ℤ)) * g k' := by
    intro r
    rw [Finset.mul_sum]
    apply Finset.sum_congr rfl
    intro k' _
    have harg : kdot nk k' r + -(kdot nk k r)
        = ((ZMod.val k'.1 : ℤ) - ZMod.val k.1) * (ZMod.val r.1 : ℤ)
          + ((ZMod.val k'.2 : ℤ) - ZMod.val k.2) * (ZMod.val r.2 : ℤ) := by
      unfold kdot
      ring
    calc ph nk (-(kdot nk k r)) * (ph nk (kdot nk k' r) * g k')
        = ph nk (kdot nk k' r + -(kdot nk k r)) * g k' := by rw [ph_add]; ring
      _ = _ := by rw [harg]
  rw [Finset.sum_congr rfl (fun r _ => step1 r)]
  rw [Finset.sum_comm]
  have step2 : ∀ k' : Kmesh nk,
      (∑ r : Kmesh nk,
        ph nk (((ZMod.val k'.1 : ℤ) - ZMod.val k.1) * (ZMod.val r.1 : ℤ)
            + ((ZMod.val k'.2 : ℤ) - ZMod.val k.2) * (ZMod.val r.2 : ℤ)) * g k')
        = (if k' = k then ((nk : ℂ) ^ 2) * g k' else 0) := by
    intro k'
    rw [← Finset.sum_mul, kspace_ph_sum]
    have hiff1 : ((nk : ℤ) ∣ ((ZMod.val k'.1 : ℤ) - ZMod.val k.1)) ↔ k.1 = k'.1 := by
      simpa using zmod_sub_dvd_iff nk k'.1 k.1 0
    have hiff2 : ((nk : ℤ) ∣ ((ZMod.val k'.2 : ℤ) - ZMod.val k.2)) ↔ k.2 = k'.2 := by
      simpa using zmod_sub_dvd_iff nk k'.2 k.2 0
    by_cases h : k' = k
    · subst h
      rw [if_pos rfl, if_pos (hiff1.mpr rfl), if_pos (hiff2.mpr rfl)]
      ring
    · rw [if_neg h]
      have hnot : ¬(k.1 = k'.1 ∧ k.2 = k'.2) := by
        intro hc
        exact h (Prod.ext hc.1.symm hc.2.symm)
      by_cases h1 : (nk : ℤ) ∣ ((ZMod.val k'.1 : ℤ) - ZMod.val k.1)
      · have h2 : ¬(nk : ℤ) ∣ ((ZMod.val k'.2 : ℤ) - ZMod.val k.2) := by
          intro h2
          exact hnot ⟨hiff1.mp h1, hiff2.mp h2⟩
        rw [if_pos h1, if_neg h2]
        ring
      · rw [if_neg h1]
        ring
  rw [Finset.sum_congr rfl (fun k' _ => step2 k')]
  rw [Finset.sum_ite_eq' Finset.univ k (fun k' => ((nk : ℂ) ^ 2) * g k')]
  rw [if_pos (Finset.mem_univ _)]
  field_simp

/-- Round trip along the frequency/time axis: the backward transform of the
forward transform is the identity at every frequency of the window. -/
theorem fourierT_roundtrip (beta : ℝ) (hb : 0 < beta) (niw : ℕ) (hw : 0 < niw)
    (g : ℤ → ℂ) (m : ℤ) (hm : m ∈ Wmesh niw) :
    fourierTinv beta niw (fourierT beta niw g) m = g m := by
  have hbc : (beta : ℂ) ≠ 0 := Complex.ofReal_ne_zero.mpr hb.ne'
  have hniwc : (niw : ℂ) ≠ 0 := Nat.cast_ne_zero.mpr hw.ne'
  have hN2 : 0 < 2 * niw := by omega
  have hNcast : ((2 * niw : ℕ) : ℤ) = 2 * (niw : ℤ) := by push_cast; ring
  have hNcastC : ((2 * niw : ℕ) : ℂ) = 2 * (niw : ℂ) := by push_cast; ring
  unfold fourierTinv fourierT
  have step1 : ∀ l ∈ Finset.range (2 * niw),
      Complex.exp (Complex.I * ((wFermi beta m * tauSample beta niw l : ℝ) : ℂ))
          * (1 / (beta : ℂ) * ∑ m' ∈ Wmesh niw,
              Complex.exp (-(Complex.I * ((wFermi beta m' * tauSample beta niw l : ℝ) : ℂ))) * g m')
        = ∑ m' ∈ Wmesh niw,
            ph (2 * niw) ((m - m') * (l : ℤ)) * (1 / (beta : ℂ) * g m') := by
    intro l _
    rw [← mul_assoc, Finset.mul_sum]
    apply Finset.sum_congr rfl
    intro m' _
    rw [← time_phase_merge_rt beta hb.ne' niw hw m m' l]
    ring
  rw [Finset.sum_congr rfl step1]
  rw [Finset.sum_comm]
  have step2 : ∀ m' ∈ Wmesh niw,
      (∑ l ∈ Finset.range (2 * niw),
        ph (2 * niw) ((m - m') * (l : ℤ)) * (1 / (beta : ℂ) * g m'))
        = (if m' = m then ((2 * niw : ℕ) : ℂ) * (1 / (beta : ℂ) * g m') else 0) := by
    intro m' hm'
    rw [← Finset.sum_mul, ph_geom_sum (2 * niw) hN2 (m - m')]
    have hiff : (((2 * niw : ℕ) : ℤ) ∣ (m - m')) ↔ m' = m := by
      rw [hNcast, wrapW_eq_iff niw hw m m' hm', wrapW_fix niw hw hm]
    rw [if_congr hiff rfl rfl, ite_mul, zero_mul]
  rw [Finset.sum_congr rfl step2]
  rw [Finset.sum_ite_eq' (Wmesh niw) m (fun m' => ((2 * niw : ℕ) : ℂ) * (1 / (beta : ℂ) * g m'))]
  rw [if_pos hm, hNcastC]
  field_simp
  ring

/-! ## Claim theorems: the bubble equivalence and the transform round trip -/

/-- Claim C1 (amended): the real-space/imaginary-time route does not
reproduce the brute-force double sum at every bosonic frequency (see the
counterexample below); what holds is: for every bosonic momentum q and
frequency index n the convolution route equals the brute-force double sum
-(1/beta) sum over (k, m) of G0(k, i w_m) G0(k + q, i w_(m+n)) with the
shifted frequency index m + n aliased into the fermionic window, and at the
zero bosonic frequency no aliasing occurs, so the two routes agree exactly
there -- in particular at the claim's quantified concrete instance
(q = (pi, pi), iW = 0 at beta = 4, mu = 0, t = -1, n_k = 64, n_iw = 20),
where the relative error is 0 < 1e-6. -/
theorem bubble_conv_eq_brute (nk niw : ℕ) [NeZero nk] (beta mu t : ℝ)
    (hb : 0 < beta) (hw : 0 < niw) :
    (∀ (q : Kmesh nk) (n : ℤ),
        chi0conv nk niw beta mu t q n = chi0bruteWrapped nk niw beta mu t q n) ∧
    (∀ q : Kmesh nk, chi0conv nk niw beta mu t q 0 = chi0brute nk niw beta mu t q 0) ∧
    (∀ q : Kmesh nk, chi0brute nk niw beta mu t q 0 ≠ 0 →
        Complex.abs (chi0conv nk niw beta mu t q 0 - chi0brute nk niw beta mu t q 0)
          / Complex.abs (chi0brute nk niw beta mu t q 0) < 1e-6) := by
  refine ⟨fun q n => chi0conv_collapse nk niw beta mu t hb hw q n, ?_, ?_⟩
  · intro q
    rw [chi0conv_collapse nk niw beta mu t hb hw q 0,
        bruteWrapped_zero nk niw beta mu t hw q]
  · intro q hq
    rw [chi0conv_collapse nk niw beta mu t hb hw q 0,
        bruteWrapped_zero nk niw beta mu t hw q, sub_self, map_zero, zero_div]
    norm_num

/-- Witness for claim C1 at the notebook's parameters beta = 4, mu = 0,
t = -1, n_k = 64, n_iw = 20 (the momentum q = (pi, pi) is the mesh index
(32, 32), covered by the quantifier). -/
theorem bubble_conv_eq_brute_witness :
    ((0 : ℝ) < 4 ∧ (0 : ℕ) < 20) ∧
    ((∀ (q : Kmesh 64) (n : ℤ),
        chi0conv 64 20 4 0 (-1) q n = chi0bruteWrapped 64 20 4 0 (-1) q n) ∧
     (∀ q : Kmesh 64, chi0conv 64 20 4 0 (-1) q 0 = chi0brute 64 20 4 0 (-1) q 0) ∧
     (∀ q : Kmesh 64, chi0brute 64 20 4 0 (-1) q 0 ≠ 0 →
        Complex.abs (chi0conv 64 20 4 0 (-1) q 0 - chi0brute 64 20 4 0 (-1) q 0)
          / Complex.abs (chi0brute 64 20 4 0 (-1) q 0) < 1e-6)) :=
  ⟨⟨by norm_num, by norm_num⟩,
    bubble_conv_eq_brute 64 20 4 0 (-1) (by norm_num) (by norm_num)⟩

/-- Claim C5: the forward and backward transform legs are mutually
consistent: round-tripping any mesh-valued function through
momentum-to-real-space-and-back, or through frequency-to-time-and-back,
reproduces the original values exactly at every mesh point (in particular
with absolute error 0 < 1e-10), for every mesh size. -/
theorem fourier_roundtrip (nk niw : ℕ) [NeZero nk] (beta : ℝ)
    (hb : 0 < beta) (hw : 0 < niw) :
    (∀ (g : Kmesh nk → ℂ) (k : Kmesh nk),
        fourierKinv nk (fourierK nk g) k = g k ∧
        Complex.abs (fourierKinv nk (fourierK nk g) k - g k) < 1e-10) ∧
    (∀ (g : ℤ → ℂ), ∀ m ∈ Wmesh niw,
        fourierTinv beta niw (fourierT beta niw g) m = g m ∧
        Complex.abs (fourierTinv beta niw (fourierT beta niw g) m - g m) < 1e-10) := by
  constructor
  · intro g k
    have h := fourierK_roundtrip nk g k
    refine ⟨h, ?_⟩
    rw [h, sub_self, map_zero]
    norm_num
  · intro g m hm
    have h := fourierT_roundtrip beta hb niw hw g m hm
    refine ⟨h, ?_⟩
    rw [h, sub_self, map_zero]
    norm_num

/-- Witness for claim C5 at the notebook's mesh sizes n_k = 64, n_iw = 20 and
beta = 4. -/
theorem fourier_roundtrip_witness :
    ((0 : ℝ) < 4 ∧ (0 : ℕ) < 20) ∧
    ((∀ (g : Kmesh 64 → ℂ) (k : Kmesh 64),
        fourierKinv 64 (fourierK 64 g) k = g k ∧
        Complex.abs (fourierKinv 64 (fourierK 64 g) k - g k) < 1e-10) ∧
     (∀ (g : ℤ → ℂ), ∀ m ∈ Wmesh 20,
        fourierTinv 4 20 (fourierT 4 20 g) m = g m ∧
        Complex.abs (fourierTinv 4 20 (fourierT 4 20 g) m - g m) < 1e-10)) :=
  ⟨⟨by norm_num, by norm_num⟩, fourier_roundtrip 64 20 4 (by norm_num) (by norm_num)⟩

/-- Claim C1 counterexample: at a nonzero bosonic frequency the two routes
differ.  On the tractable configuration beta = 4, mu = 0, t = 0, n_k = 1,
n_iw = 1, at q = 0 and the bosonic index n = 1, the real-space/imaginary-time
route gives -8/pi^2 while the brute-force double sum gives -8/(3 pi^2): the
discrete transform aliases the shifted index m + 1 of the top window
frequency back to the bottom of the window, and the resulting relative
discrepancy is 2, far above the claim's 1e-6 tolerance scale. -/
theorem bubble_conv_eq_brute_counterexample :
    chi0conv 1 1 4 0 0 ((0, 0) : Kmesh 1) 1 ≠ chi0brute 1 1 4 0 0 ((0, 0) : Kmesh 1) 1 ∧
    Complex.abs (chi0conv 1 1 4 0 0 ((0, 0) : Kmesh 1) 1
        - chi0brute 1 1 4 0 0 ((0, 0) : Kmesh 1) 1)
      > 1e-6 * Complex.abs (chi0brute 1 1 4 0 0 ((0, 0) : Kmesh 1) 1) := by
  have hπ : Real.pi ≠ 0 := Real.pi_ne_zero
  have heps : ∀ k : Kmesh 1, epsMesh 1 0 k = 0 := by
    intro k
    rw [epsMesh_real]
    norm_num
  have hGval : ∀ c : ℝ, (1 : ℂ) / (Complex.I * (c : ℝ)) = ((-(1 / c) : ℝ) : ℂ) * Complex.I := by
    intro c
    rw [one_div, mul_inv, Complex.inv_I]
    push_cast
    field_simp
  have hG : ∀ (k : Kmesh 1) (m : ℤ),
      G0k 1 4 0 0 k m = ((-(1 / ((2 * (m : ℝ) + 1) * Real.pi / 4)) : ℝ) : ℂ) * Complex.I := by
    intro k m
    unfold G0k wFermi
    rw [heps k]
    simp only [Complex.ofReal_zero, sub_zero, add_zero]
    exact hGval _
  have hII : ∀ x y : ℝ,
      ((x : ℝ) : ℂ) * Complex.I * (((y : ℝ) : ℂ) * Complex.I) = ((-(x * y) : ℝ) : ℂ) := by
    intro x y
    have h : ((x : ℝ) : ℂ) * Complex.I * (((y : ℝ) : ℂ) * Complex.I)
        = ((x : ℝ) : ℂ) * ((y : ℝ) : ℂ) * (Complex.I * Complex.I) := by ring
    rw [h, Complex.I_mul_I]
    push_cast
    ring
  have huniv : (Finset.univ : Finset (Kmesh 1)) = {((0, 0) : Kmesh 1)} := by decide
  have hW : Wmesh 1 = ({-1, 0} : Finset ℤ) := by decide
  have hconv : chi0conv 1 1 4 0 0 ((0, 0) : Kmesh 1) 1 = ((-8 / Real.pi ^ 2 : ℝ) : ℂ) := by
    rw [chi0conv_collapse 1 1 4 0 0 (by norm_num) (by norm_num) ((0, 0) : Kmesh 1) 1]
    unfold chi0bruteWrapped
    rw [huniv, Finset.sum_singleton, hW, Finset.sum_pair (by norm_num : (-1 : ℤ) ≠ 0)]
    rw [show wrapW 1 (-1 + 1) = 0 from by decide, show wrapW 1 (0 + 1) = -1 from by decide]
    simp only [hG, hII]
    push_cast
    field_simp
    ring
  have hbrute : chi0brute 1 1 4 0 0 ((0, 0) : Kmesh 1) 1 = ((-8 / (3 * Real.pi ^ 2) : ℝ) : ℂ) := by
    unfold chi0brute
    rw [huniv, Finset.sum_singleton, hW, Finset.sum_pair (by norm_num : (-1 : ℤ) ≠ 0)]
    simp only [hG, hII]
    push_cast
    field_simp
    ring
  have hπ2 : (0 : ℝ) < Real.pi ^ 2 := by positivity
  constructor
  · rw [hconv, hbrute]
    intro h
    have h2 := Complex.ofReal_inj.mp h
    rw [div_eq_div_iff (ne_of_gt hπ2) (by positivity)] at h2
    nlinarith [hπ2]
  · rw [hconv, hbrute]
    have hd : ((-8 / Real.pi ^ 2 : ℝ) : ℂ) - ((-8 / (3 * Real.pi ^ 2) : ℝ) : ℂ)
        = ((-16 / (3 * Real.pi ^ 2) : ℝ) : ℂ) := by
      rw [← Complex.ofReal_sub]
      congr 1
      field_simp
      ring
    rw [hd, Complex.abs_ofReal, Complex.abs_ofReal]
    rw [show (-16 / (3 * Real.pi ^ 2) : ℝ) = -(16 / (3 * Real.pi ^ 2)) from by ring,
        show (-8 / (3 * Real.pi ^ 2) : ℝ) = -(8 / (3 * Real.pi ^ 2)) from by ring,
        abs_neg, abs_neg, abs_of_pos (by positivity), abs_of_pos (by positivity)]
    have hx : (0 : ℝ) < 8 / (3 * Real.pi ^ 2) := by positivity
    have h1e : (1e-6 : ℝ) = 1 / 1000000 := by norm_num
    have h2x : (16 / (3 * Real.pi ^ 2) : ℝ) = 2 * (8 / (3 * Real.pi ^ 2)) := by ring
    rw [h1e, h2x]
    linarith [hx]
